import Mathlib

/-!
Verification of the NFT marketplace HTML-to-JSON extractor
(`src/pyt/hui.py`): a filename allocator (`get_unique_filename`) and an
extraction pipeline (`parse_html_to_json`).

The embedding is shallow:
* the filesystem is a predicate `fs : String → Bool` giving `os.path.exists`;
* the unbounded `while True` probe loop of the allocator is given explicit
  fuel and returns `Option String` (`none` models divergence);
* the parsed HTML document (BeautifulSoup tree) is the inductive `HNode`;
  reading and parsing `index.html` is modelled by an
  `Option (List HNode)` argument, `none` standing for `FileNotFoundError`;
* `json.dump(..., indent=4, ensure_ascii=False)` is modelled by `json_dumps`
  over a `Json` inductive, and a separate JSON parser `json_loads` is used
  to state the round-trip property.
-/

/-- A node of the parsed HTML tree (the BeautifulSoup document model):
an element has a tag, the list of classes from its `class` attribute,
its remaining attributes, and children; or it is a text node. -/
inductive HNode where
  | elem (tag : String) (classes : List String) (attrs : List (String × String))
      (children : List HNode) : HNode
  | text (s : String) : HNode

/-- All nodes strictly below a node, in document (pre-)order:
BeautifulSoup's `.descendants`. -/
def HNode.descendants : HNode → List HNode
  | .elem _ _ _ children => descList children
  | .text _ => []
where
  /-- Each node of the list followed by its subtree, in document order. -/
  descList : List HNode → List HNode
  | [] => []
  | c :: cs => c :: HNode.descendants c ++ descList cs

/-- All nodes of a document (a list of top-level nodes), in document order:
`soup.descendants` for the whole parsed page. -/
def docNodes (doc : List HNode) : List HNode :=
  HNode.descendants.descList doc

/-- The matcher of `find`/`find_all(tag, class_=cls)`: an element with the
given tag whose class list contains `cls`. -/
def matchesTagClass (tag cls : String) : HNode → Bool
  | .elem t cs _ _ => t == tag && cs.contains cls
  | .text _ => false

/-- `soup.find_all(tag, class_=cls)`: every matching element of the document
in document order. -/
def find_all (doc : List HNode) (tag cls : String) : List HNode :=
  (docNodes doc).filter (matchesTagClass tag cls)

/-- `item.find(tag, class_=cls)`: the first matching descendant. -/
def HNode.findDesc (n : HNode) (tag cls : String) : Option HNode :=
  n.descendants.find? (matchesTagClass tag cls)

/-- `tag.get(key)`: attribute lookup on an element, `None` on a text node. -/
def HNode.getAttr : HNode → String → Option String
  | .elem _ _ attrs _, key => (attrs.find? (fun p => p.1 == key)).map (fun p => p.2)
  | .text _, _ => none

/-- Python `str.strip()`: drop leading and trailing whitespace. Defined on
the character list so that it evaluates by kernel reduction. -/
def pyStrip (s : String) : String :=
  ⟨((s.data.dropWhile Char.isWhitespace).reverse.dropWhile Char.isWhitespace).reverse⟩

/-- `tag.get_text(strip=True)`: concatenation of every text fragment of the
subtree in document order, each fragment stripped of surrounding
whitespace. -/
def HNode.getTextStrip : HNode → String
  | .text s => pyStrip s
  | .elem _ _ _ children => textList children
where
  /-- `get_text` over a list of children. -/
  textList : List HNode → String
  | [] => ""
  | c :: cs => HNode.getTextStrip c ++ textList cs

/-- One extracted record: the dict
`{"name": ..., "price": ..., "image_url": ...}` built in the loop body. -/
structure Record where
  name : String
  price : String
  image_url : String
deriving DecidableEq

/-- Loop body, step 1: `img_tag = item.find('img', class_='LibraryMedia')`;
`image_url = img_tag.get('src') if img_tag else None`. -/
def extractImageUrl (item : HNode) : Option String :=
  match item.findDesc "img" "LibraryMedia" with
  | some img_tag => img_tag.getAttr "src"
  | none => none

/-- Loop body, step 2: `name_tag = item.find('span',
class_='NftItemNameContent__name')`; trimmed text if present, else the
sentinel `"Unknown Name"`. -/
def extractName (item : HNode) : String :=
  match item.findDesc "span" "NftItemNameContent__name" with
  | some name_tag => name_tag.getTextStrip
  | none => "Unknown Name"

/-- Loop body, step 3: `price_tag = item.find('div',
class_='LibraryCryptoPrice__amount')`; trimmed text if present, else the
sentinel `"Not Listed"`. -/
def extractPrice (item : HNode) : String :=
  match item.findDesc "div" "LibraryCryptoPrice__amount" with
  | some price_tag => price_tag.getTextStrip
  | none => "Not Listed"

/-- Loop body, step 4: `if image_url:` — append the record only when
`image_url` is truthy, i.e. neither `None` nor the empty string. -/
def extractRecord (item : HNode) : Option Record :=
  match extractImageUrl item with
  | some url =>
      if url = "" then none
      else some ⟨extractName item, extractPrice item, url⟩
  | none => none

/-- The probe name `f"{base_name}_{counter}{extension}"` used inside the
allocator loop. -/
def numberedName (base_name extension : String) (counter : Nat) : String :=
  base_name ++ "_" ++ Nat.repr counter ++ extension

/-- The `while True` loop of `get_unique_filename`, with explicit fuel:
probe `base_counter.ext`, return it if free, else increment. `none` models
running out of fuel (the Python loop would still be running). -/
def uniqueLoop (fs : String → Bool) (base_name extension : String) :
    Nat → Nat → Option String
  | 0, _ => none
  | fuel + 1, counter =>
      if fs (numberedName base_name extension counter) then
        uniqueLoop fs base_name extension fuel (counter + 1)
      else
        some (numberedName base_name extension counter)

/-- `get_unique_filename(base_name, extension)`: return `base.ext` when that
path does not exist, else the first free `base_k.ext` for `k = 1, 2, ...`.
The filesystem existence probe `os.path.exists` is the argument `fs`. -/
def get_unique_filename (fs : String → Bool) (fuel : Nat)
    (base_name extension : String) : Option String :=
  if fs (base_name ++ extension) then
    uniqueLoop fs base_name extension fuel 1
  else
    some (base_name ++ extension)

/-- Candidate `k` of the probe sequence: `base.ext` at `k = 0`, then
`base_k.ext` for `k ≥ 1`. -/
def candidateName (base_name extension : String) : Nat → String
  | 0 => base_name ++ extension
  | k + 1 => numberedName base_name extension (k + 1)

/-- A JSON value as produced by this program: only strings, arrays and
objects occur (every record field is a string). -/
inductive Json where
  | str (s : String) : Json
  | arr (xs : List Json) : Json
  | obj (members : List (String × Json)) : Json

/-- `json.dump` string escaping with `ensure_ascii=False`
(CPython `py_encode_basestring`): escape backslash, double quote and the
control characters below `U+0020` (short forms for `\b \f \n \r \t`,
`\u00XX` otherwise); every other character — non-ASCII included — is kept
literally. -/
def escapeChar (c : Char) : List Char :=
  if c = '"' then ['\\', '"']
  else if c = '\\' then ['\\', '\\']
  else if c = '\x08' then ['\\', 'b']
  else if c = '\x0c' then ['\\', 'f']
  else if c = '\n' then ['\\', 'n']
  else if c = '\r' then ['\\', 'r']
  else if c = '\t' then ['\\', 't']
  else if c.toNat < 0x20 then
    ['\\', 'u', '0', '0', Nat.digitChar (c.toNat / 16), Nat.digitChar (c.toNat % 16)]
  else [c]

/-- Escape every character of a string. -/
def escapeChars : List Char → List Char
  | [] => []
  | c :: cs => escapeChar c ++ escapeChars cs

/-- String-level escaping. -/
def escapeString (s : String) : String :=
  ⟨escapeChars s.data⟩

/-- The indentation prefix at nesting level `lvl` for `indent=4`:
`4 * lvl` spaces. -/
def indentChars (lvl : Nat) : List Char :=
  List.replicate (4 * lvl) ' '

mutual

/-- `json.dumps(v, indent=4, ensure_ascii=False)` at nesting level `lvl`
(CPython `_make_iterencode` with indent): empty containers print as
`[]`/`{}`; non-empty containers put each item on its own line indented one
level deeper, separated by commas, with the closing bracket back at the
outer level; object keys are written `"key": value`. -/
def dumpVal : Json → Nat → List Char
  | .str s, _ => '"' :: escapeChars s.data ++ ['"']
  | .arr [], _ => ['[', ']']
  | .arr (x :: xs), lvl =>
      '[' :: dumpItems (x :: xs) (lvl + 1) ++ '\n' :: indentChars lvl ++ [']']
  | .obj [], _ => ['\x7b', '\x7d']
  | .obj (kv :: kvs), lvl =>
      '\x7b' :: dumpMembers (kv :: kvs) (lvl + 1) ++ '\n' :: indentChars lvl ++ ['\x7d']

/-- The items of a non-empty array, each on its own indented line,
comma-separated. -/
def dumpItems : List Json → Nat → List Char
  | [], _ => []
  | [x], lvl => '\n' :: indentChars lvl ++ dumpVal x lvl
  | x :: y :: xs, lvl =>
      '\n' :: indentChars lvl ++ dumpVal x lvl ++ ',' :: dumpItems (y :: xs) lvl

/-- The members of a non-empty object, each on its own indented line as
`"key": value`, comma-separated. -/
def dumpMembers : List (String × Json) → Nat → List Char
  | [], _ => []
  | [(k, v)], lvl =>
      '\n' :: indentChars lvl ++ '"' :: escapeChars k.data ++ '"' :: ':' :: ' ' :: dumpVal v lvl
  | (k, v) :: m :: ms, lvl =>
      '\n' :: indentChars lvl ++ '"' :: escapeChars k.data ++ '"' :: ':' :: ' ' :: dumpVal v lvl
        ++ ',' :: dumpMembers (m :: ms) lvl

end

/-- `json.dumps(v, indent=4, ensure_ascii=False)` — the exact text that
`json.dump` writes to the output file. -/
def json_dumps (v : Json) : String :=
  ⟨dumpVal v 0⟩

/-- The dict literal of the loop body, key insertion order
`name, price, image_url`. -/
def recordJson (r : Record) : Json :=
  .obj [("name", .str r.name), ("price", .str r.price), ("image_url", .str r.image_url)]

/-- The `nft_data` list as a JSON value. -/
def collectionJson (l : List Record) : Json :=
  .arr (l.map recordJson)

/-- JSON whitespace. -/
def isWsChar (c : Char) : Bool :=
  c = ' ' || c = '\n' || c = '\t' || c = '\r'

/-- Drop leading JSON whitespace. -/
def skipWs : List Char → List Char
  | [] => []
  | c :: cs => if isWsChar c then skipWs cs else c :: cs

/-- Value of one hexadecimal digit, by code point: `0`-`9`, `a`-`f`,
`A`-`F`. -/
def hexVal (c : Char) : Option Nat :=
  let n := c.toNat
  if 48 ≤ n && n ≤ 57 then some (n - 48)
  else if 97 ≤ n && n ≤ 102 then some (n - 87)
  else if 65 ≤ n && n ≤ 70 then some (n - 55)
  else none

/-- Value of a four-digit hexadecimal escape. -/
def hex4 (a b c d : Char) : Option Nat :=
  match hexVal a, hexVal b, hexVal c, hexVal d with
  | some x, some y, some z, some w => some (((x * 16 + y) * 16 + z) * 16 + w)
  | _, _, _, _ => none

/-- The character denoted by a one-letter escape sequence. -/
def unescapeChar (c : Char) : Option Char :=
  if c = '"' then some '"'
  else if c = '\\' then some '\\'
  else if c = '/' then some '/'
  else if c = 'b' then some '\x08'
  else if c = 'f' then some '\x0c'
  else if c = 'n' then some '\n'
  else if c = 'r' then some '\r'
  else if c = 't' then some '\t'
  else none

/-- Parse the body of a JSON string literal after the opening quote:
returns the decoded characters and the input after the closing quote.
Unescaped control characters are rejected, as in `json.loads`. -/
def parseStringBody : List Char → Option (List Char × List Char)
  | [] => none
  | c :: rest =>
      if c = '"' then some ([], rest)
      else if c = '\\' then
        match rest with
        | [] => none
        | e :: rest2 =>
            if e = 'u' then
              match rest2 with
              | h1 :: h2 :: h3 :: h4 :: rest3 =>
                  match hex4 h1 h2 h3 h4 with
                  | some n =>
                      match parseStringBody rest3 with
                      | some (cs, r) => some (Char.ofNat n :: cs, r)
                      | none => none
                  | none => none
              | _ => none
            else
              match unescapeChar e with
              | some u =>
                  match parseStringBody rest2 with
                  | some (cs, r) => some (u :: cs, r)
                  | none => none
              | none => none
      else if c.toNat < 0x20 then none
      else
        match parseStringBody rest with
        | some (cs, r) => some (c :: cs, r)
        | none => none

mutual

/-- Recursive-descent parser for the JSON fragment this program emits
(strings, arrays, objects), with fuel bounding the recursion. Returns the
value and the unconsumed input. -/
def parseValue : Nat → List Char → Option (Json × List Char)
  | 0, _ => none
  | fuel + 1, input =>
      match skipWs input with
      | [] => none
      | c :: rest =>
          if c = '"' then
            match parseStringBody rest with
            | some (cs, r) => some (.str ⟨cs⟩, r)
            | none => none
          else if c = '[' then
            match skipWs rest with
            | [] => parseArrItems fuel rest []
            | c2 :: r2 =>
                if c2 = ']' then some (.arr [], r2)
                else parseArrItems fuel rest []
          else if c = '\x7b' then
            match skipWs rest with
            | [] => parseObjItems fuel rest []
            | c2 :: r2 =>
                if c2 = '\x7d' then some (.obj [], r2)
                else parseObjItems fuel rest []
          else none

/-- Parse the remaining items of a non-empty array, accumulating in order. -/
def parseArrItems : Nat → List Char → List Json → Option (Json × List Char)
  | 0, _, _ => none
  | fuel + 1, input, acc =>
      match parseValue fuel input with
      | some (v, r) =>
          match skipWs r with
          | [] => none
          | c :: r2 =>
              if c = ',' then parseArrItems fuel r2 (acc ++ [v])
              else if c = ']' then some (.arr (acc ++ [v]), r2)
              else none
      | none => none

/-- Parse the remaining members of a non-empty object, accumulating in
order. -/
def parseObjItems : Nat → List Char → List (String × Json) →
    Option (Json × List Char)
  | 0, _, _ => none
  | fuel + 1, input, acc =>
      match skipWs input with
      | [] => none
      | c :: rest =>
          if c = '"' then
            match parseStringBody rest with
            | some (kcs, r) =>
                match skipWs r with
                | [] => none
                | c2 :: r2 =>
                    if c2 = ':' then
                      match parseValue fuel r2 with
                      | some (v, r3) =>
                          match skipWs r3 with
                          | [] => none
                          | c3 :: r4 =>
                              if c3 = ',' then
                                parseObjItems fuel r4 (acc ++ [(⟨kcs⟩, v)])
                              else if c3 = '\x7d' then
                                some (.obj (acc ++ [(⟨kcs⟩, v)]), r4)
                              else none
                      | none => none
                    else none
            | none => none
          else none

end

/-- Parse a complete JSON document: one value, with only whitespace after
it. The fuel `length + 1` always suffices (each parser step consumes input). -/
def json_loads (s : String) : Option Json :=
  match parseValue (s.data.length + 1) s.data with
  | some (v, r) => if skipWs r = [] then some v else none
  | none => none

/-- Console line printed when `index.html` is missing. -/
def notFoundMessage : String :=
  "❌ Ошибка: Файл \x27index.html\x27 не найден. Сохраните HTML страницы в этот файл."

/-- First console line of a successful run, ending in the record count. -/
def successMessage (count : Nat) : String :=
  "✅ Успешно обработано! Найдено элементов: " ++ Nat.repr count

/-- Second console line of a successful run, ending in the output path. -/
def savedMessage (path : String) : String :=
  "📁 Результат сохранен в файл: " ++ path

/-- Console line printed when no record was collected. -/
def emptyMessage : String :=
  "⚠️ NFT не найдены. Проверьте содержимое файла index.html"

/-- Observable outcome of one run: the console lines in the order printed,
and the output file write, if any, as `(path, text)`. -/
structure RunResult where
  messages : List String
  written : Option (String × String)
deriving DecidableEq

/-- The whole pipeline `parse_html_to_json()`.

Arguments model the ambient state: `fs` is the `os.path.exists` probe,
`fuel` bounds the allocator loop, and `indexHtml` is the parsed content of
`index.html` (`none` when opening raises `FileNotFoundError`). The result
is `none` only when the allocator runs out of fuel (the Python program
would still be inside `while True`); otherwise the run terminates cleanly
with the printed lines and the optional file write. -/
def parse_html_to_json (fs : String → Bool) (fuel : Nat)
    (indexHtml : Option (List HNode)) : Option RunResult :=
  match get_unique_filename fs fuel "nft_collection" ".json" with
  | none => none
  | some json_output_file =>
      match indexHtml with
      | none => some ⟨[notFoundMessage], none⟩
      | some doc =>
          let items := find_all doc "div" "NftItemContainer"
          let nft_data := items.filterMap extractRecord
          match nft_data with
          | [] => some ⟨[emptyMessage], none⟩
          | _ :: _ =>
              some ⟨[successMessage nft_data.length, savedMessage json_output_file],
                    some (json_output_file, json_dumps (collectionJson nft_data))⟩

/-- Spec-side layout of one serialized record (step 7 of the spec): an
object on its own lines at one level of 4-space indentation, fields inside
at two levels, keys in the order `name`, `price`, `image_url`. -/
def specRecordBlock (r : Record) : String :=
  "    \x7b\n        \"name\": \"" ++ escapeString r.name ++
    "\",\n        \"price\": \"" ++ escapeString r.price ++
    "\",\n        \"image_url\": \"" ++ escapeString r.image_url ++
    "\"\n    \x7d"

/-- Spec-side layout of the record blocks, comma-separated. -/
def specRecordBlocks : List Record → String
  | [] => ""
  | [r] => specRecordBlock r
  | r :: r2 :: rs => specRecordBlock r ++ ",\n" ++ specRecordBlocks (r2 :: rs)

/-- Spec-side layout of the whole output document for a non-empty
collection: a JSON array of the record blocks. -/
def specSerialize (l : List Record) : String :=
  "[\n" ++ specRecordBlocks l ++ "\n]"

mutual

/-- Fuel needed by `parseValue` on the output of `dumpVal`. -/
def weightVal : Json → Nat
  | .str _ => 1
  | .arr xs => 1 + weightItems xs
  | .obj ms => 1 + weightMembers ms

/-- Fuel needed by `parseArrItems` on the output of `dumpItems`. -/
def weightItems : List Json → Nat
  | [] => 0
  | x :: xs => 1 + weightVal x + weightItems xs

/-- Fuel needed by `parseObjItems` on the output of `dumpMembers`. -/
def weightMembers : List (String × Json) → Nat
  | [] => 0
  | (_, v) :: ms => 1 + weightVal v + weightMembers ms

end

/-- Decimal digits of `n`, most significant first, as characters
(the reference rendering that `Nat.repr` is proved to agree with). -/
def natToChars (n : Nat) : List Char :=
  if _h : n < 10 then [Nat.digitChar n]
  else natToChars (n / 10) ++ [Nat.digitChar (n % 10)]
decreasing_by
  exact Nat.div_lt_self (by omega) (by omega)

/-- Numeric value of one decimal digit character. -/
def decDigit (c : Char) : Nat :=
  c.toNat - '0'.toNat

/-- Numeric value of a most-significant-first decimal digit string. -/
def decodeDigits (l : List Char) : Nat :=
  l.foldl (fun a c => 10 * a + decDigit c) 0

/-- The filesystem after creating the file `name`: the step between two
calls in the repeated-allocation scenario. -/
def extendFs (fs : String → Bool) (name : String) : String → Bool :=
  fun s => if s = name then true else fs s

/-- Call the allocator `n` times, creating each returned file before the
next call; collect the returned paths in order. -/
def allocateN (fs : String → Bool) (fuel : Nat) (base_name extension : String) :
    Nat → Option (List String)
  | 0 => some []
  | n + 1 =>
      match get_unique_filename fs fuel base_name extension with
      | none => none
      | some r =>
          match allocateN (extendFs fs r) fuel base_name extension n with
          | some rest => some (r :: rest)
          | none => none

/-- The empty filesystem: no path exists. -/
def fsEmpty : String → Bool := fun _ => false

/-- A filesystem on which only `nft_data.json` exists. -/
def fsOne : String → Bool := fun s => s == "nft_data.json"

/-- A marker-class container whose image element has an empty `src`
attribute. -/
def itemEmptySrc : HNode :=
  .elem "div" ["NftItemContainer"] []
    [.elem "img" ["LibraryMedia"] [("src", "")] []]

/-- A marker-class container whose image element has no `src` attribute. -/
def itemNoSrc : HNode :=
  .elem "div" ["NftItemContainer"] []
    [.elem "img" ["LibraryMedia"] [] []]

/-- A marker-class container with name and price but no image element. -/
def itemNoImg : HNode :=
  .elem "div" ["NftItemContainer"] []
    [.elem "span" ["NftItemNameContent__name"] [] [.text "Cool Cat"],
     .elem "div" ["LibraryCryptoPrice__amount"] [] [.text "1.5 TON"]]

/-- A fully populated marker-class container (the spec's first scenario). -/
def itemFull : HNode :=
  .elem "div" ["NftItemContainer"] []
    [.elem "img" ["LibraryMedia"] [("src", "http://x/1.png")] [],
     .elem "span" ["NftItemNameContent__name"] [] [.text "Cool Cat"],
     .elem "div" ["LibraryCryptoPrice__amount"] [] [.text "1.5 TON"]]

/-- A marker-class container with an image but neither name nor price
sub-element. -/
def itemBare : HNode :=
  .elem "div" ["NftItemContainer"] []
    [.elem "img" ["LibraryMedia"] [("src", "http://x/2.png")] []]

/-- A document holding the same populated container twice. -/
def dupDoc : List HNode := [itemFull, itemFull]

/-- Soundness of the probe loop: a returned name is the first free numbered
name at or after the starting counter. -/
theorem uniqueLoop_sound (fs : String → Bool) (b e : String) :
    ∀ fuel c r, uniqueLoop fs b e fuel c = some r →
      ∃ k, c ≤ k ∧ r = numberedName b e k ∧ fs (numberedName b e k) = false ∧
        ∀ j, c ≤ j → j < k → fs (numberedName b e j) = true := by
  intro fuel
  induction fuel with
  | zero => intro c r h; simp [uniqueLoop] at h
  | succ fuel ih =>
    intro c r h
    simp only [uniqueLoop] at h
    by_cases hc : fs (numberedName b e c) = true
    · rw [if_pos hc] at h
      obtain ⟨k, hk1, hk2, hk3, hk4⟩ := ih (c + 1) r h
      refine ⟨k, by omega, hk2, hk3, fun j hj1 hj2 => ?_⟩
      rcases Nat.eq_or_lt_of_le hj1 with hj | hj
      · exact hj ▸ hc
      · exact hk4 j (by omega) hj2
    · have hcf : fs (numberedName b e c) = false := by simpa using hc
      rw [if_neg hc] at h
      refine ⟨c, Nat.le_refl c, by injection h with h; exact h.symm, hcf,
        fun j hj1 hj2 => by omega⟩

/-- Exactness of the probe loop: when the names below `m` are occupied and
`m` is free, the loop returns exactly name `m` (given enough fuel). -/
theorem uniqueLoop_exact (fs : String → Bool) (b e : String) :
    ∀ fuel c m, c ≤ m → m - c < fuel → fs (numberedName b e m) = false →
      (∀ j, c ≤ j → j < m → fs (numberedName b e j) = true) →
      uniqueLoop fs b e fuel c = some (numberedName b e m) := by
  intro fuel
  induction fuel with
  | zero => intro c m h1 h2 _ _; omega
  | succ fuel ih =>
    intro c m hcm hf hfree hocc
    simp only [uniqueLoop]
    by_cases h : c = m
    · subst h
      rw [if_neg (by simp [hfree])]
    · rw [if_pos (hocc c (Nat.le_refl c) (by omega))]
      exact ih (c + 1) m (by omega) (by omega) hfree
        (fun j hj1 hj2 => hocc j (by omega) hj2)

/-- Termination of the probe loop: one free numbered name in fuel range is
enough for the loop to return. -/
theorem uniqueLoop_term (fs : String → Bool) (b e : String) :
    ∀ fuel c m, c ≤ m → m - c < fuel → fs (numberedName b e m) = false →
      ∃ r, uniqueLoop fs b e fuel c = some r := by
  intro fuel
  induction fuel with
  | zero => intro c m h1 h2 _; omega
  | succ fuel ih =>
    intro c m hcm hf hfree
    simp only [uniqueLoop]
    by_cases hc : fs (numberedName b e c) = true
    · rw [if_pos hc]
      have hne : c ≠ m := fun h => by rw [h, hfree] at hc; cases hc
      exact ih (c + 1) m (by omega) (by omega) hfree
    · exact ⟨numberedName b e c, by rw [if_neg hc]⟩

/-- `Nat.toDigitsCore` agrees with the reference digit rendering. -/
theorem toDigitsCore_eq_natToChars :
    ∀ fuel n acc, n < fuel → Nat.toDigitsCore 10 fuel n acc = natToChars n ++ acc := by
  intro fuel
  induction fuel with
  | zero => intro n acc h; omega
  | succ fuel ih =>
    intro n acc h
    simp only [Nat.toDigitsCore]
    by_cases h10 : n / 10 = 0
    · rw [if_pos h10, natToChars, dif_pos (by omega : n < 10)]
      have : n % 10 = n := by omega
      rw [this]
      rfl
    · rw [if_neg h10, ih (n / 10) _ (by omega)]
      conv_rhs => rw [natToChars]
      rw [dif_neg (by omega : ¬ n < 10)]
      simp

/-- Value of a digit character, inverse of `Nat.digitChar` below 10. -/
theorem decDigit_digitChar : ∀ d, d < 10 → decDigit (Nat.digitChar d) = d := by decide

/-- Appending one digit multiplies the decoded value by ten. -/
theorem decodeDigits_append_digit (l : List Char) (c : Char) :
    decodeDigits (l ++ [c]) = 10 * decodeDigits l + decDigit c := by
  simp [decodeDigits, List.foldl_append]

/-- Decoding inverts the reference digit rendering. -/
theorem decode_natToChars (n : Nat) : decodeDigits (natToChars n) = n := by
  induction n using Nat.strong_induction_on with
  | _ n ih =>
    by_cases h : n < 10
    · rw [natToChars, dif_pos h]
      simp [decodeDigits, decDigit_digitChar n h]
    · rw [natToChars, dif_neg h, decodeDigits_append_digit,
        ih (n / 10) (by omega), decDigit_digitChar _ (by omega)]
      omega

/-- The digit rendering of a number is never empty. -/
theorem natToChars_ne_nil (n : Nat) : natToChars n ≠ [] := by
  rw [natToChars]
  split <;> simp

/-- `Nat.repr` renders exactly the reference digits. -/
theorem repr_eq_mk_natToChars (n : Nat) : Nat.repr n = ⟨natToChars n⟩ := by
  show (Nat.toDigits 10 n).asString = _
  rw [Nat.toDigits, toDigitsCore_eq_natToChars (n + 1) n [] (by omega), List.append_nil]
  rfl

/-- Decimal rendering of naturals is injective. -/
theorem nat_repr_injective {m n : Nat} (h : Nat.repr m = Nat.repr n) : m = n := by
  rw [repr_eq_mk_natToChars, repr_eq_mk_natToChars] at h
  have hd : natToChars m = natToChars n := congrArg String.data h
  calc m = decodeDigits (natToChars m) := (decode_natToChars m).symm
    _ = decodeDigits (natToChars n) := by rw [hd]
    _ = n := decode_natToChars n

/-- The decimal rendering is a non-empty string. -/
theorem repr_data_ne_nil (n : Nat) : (Nat.repr n).data ≠ [] := by
  rw [repr_eq_mk_natToChars]
  exact natToChars_ne_nil n

/-- Distinct counters give distinct numbered names. -/
theorem numberedName_inj {b e : String} {m n : Nat}
    (h : numberedName b e m = numberedName b e n) : m = n := by
  apply nat_repr_injective
  have hd := congrArg String.data h
  simp only [numberedName, String.data_append, List.append_assoc] at hd
  have h1 := List.append_cancel_left hd
  have h2 := List.append_cancel_left h1
  exact String.ext (List.append_cancel_right h2)

/-- Distinct indices give distinct candidate names. -/
theorem candidateName_inj {b e : String} {m n : Nat}
    (h : candidateName b e m = candidateName b e n) : m = n := by
  match m, n with
  | 0, 0 => rfl
  | 0, k + 1 =>
    exfalso
    have hd := congrArg (fun s => s.data.length) h
    simp only [candidateName, numberedName, String.data_append, List.length_append] at hd
    have := List.length_pos.mpr (repr_data_ne_nil (k + 1))
    simp at hd
    omega
  | j + 1, 0 =>
    exfalso
    have hd := congrArg (fun s => s.data.length) h
    simp only [candidateName, numberedName, String.data_append, List.length_append] at hd
    have := List.length_pos.mpr (repr_data_ne_nil (j + 1))
    simp at hd
    omega
  | j + 1, k + 1 =>
    exact numberedName_inj (b := b) (e := e) h

/-- C2: for every base name and extension, the Filename Allocator returns
`base.ext` when no file of that name exists, and otherwise returns
`base_k.ext` for the smallest counter `k ≥ 1` such that `base_k.ext` does
not exist; in all cases the returned value names a path that does not exist
at the moment of the check. -/
theorem C2_allocator_first_free (fs : String → Bool) (fuel : Nat)
    (base_name extension : String) (r : String)
    (h : get_unique_filename fs fuel base_name extension = some r) :
    fs r = false ∧
    (fs (base_name ++ extension) = false → r = base_name ++ extension) ∧
    (fs (base_name ++ extension) = true →
      ∃ k, 1 ≤ k ∧ r = numberedName base_name extension k ∧
        fs (numberedName base_name extension k) = false ∧
        ∀ j, 1 ≤ j → j < k → fs (numberedName base_name extension j) = true) := by
  unfold get_unique_filename at h
  by_cases hb : fs (base_name ++ extension) = true
  · rw [if_pos hb] at h
    obtain ⟨k, hk1, hk2, hk3, hk4⟩ := uniqueLoop_sound fs _ _ fuel 1 r h
    refine ⟨hk2 ▸ hk3, fun hc => ?_, fun _ => ⟨k, hk1, hk2, hk3, hk4⟩⟩
    rw [hb] at hc
    cases hc
  · have hbf : fs (base_name ++ extension) = false := by simpa using hb
    rw [if_neg hb] at h
    injection h with h
    subst h
    exact ⟨hbf, fun _ => rfl, fun hc => by rw [hbf] at hc; cases hc⟩

/-- Witness for C2 on a filesystem where only `nft_data.json` exists:
the allocator returns `nft_data_1.json`. -/
theorem C2_allocator_first_free_witness :
    fsOne "nft_data_1.json" = false ∧
    (fsOne ("nft_data" ++ ".json") = false → "nft_data_1.json" = "nft_data" ++ ".json") ∧
    (fsOne ("nft_data" ++ ".json") = true →
      ∃ k, 1 ≤ k ∧ "nft_data_1.json" = numberedName "nft_data" ".json" k ∧
        fsOne (numberedName "nft_data" ".json" k) = false ∧
        ∀ j, 1 ≤ j → j < k → fsOne (numberedName "nft_data" ".json" j) = true) :=
  C2_allocator_first_free fsOne 2 "nft_data" ".json" "nft_data_1.json" (by decide)

/-- C9: the Filename Allocator has no error conditions and terminates for
every filesystem state in which only finitely many of the probed paths
exist (here: some fuel makes the loop return). -/
theorem C9_allocator_terminates (fs : String → Bool) (base_name extension : String)
    (h : Set.Finite {k : Nat | fs (candidateName base_name extension k) = true}) :
    ∃ fuel r, get_unique_filename fs fuel base_name extension = some r := by
  by_cases hb : fs (base_name ++ extension) = true
  · obtain ⟨N, hN⟩ := h.bddAbove
    have hfree : fs (numberedName base_name extension (N + 1)) = false := by
      by_cases hc : fs (candidateName base_name extension (N + 1)) = true
      · exact absurd (hN hc) (by omega)
      · simpa [candidateName] using hc
    obtain ⟨r, hr⟩ := uniqueLoop_term fs base_name extension (N + 2) 1 (N + 1)
      (by omega) (by omega) hfree
    refine ⟨N + 2, r, ?_⟩
    unfold get_unique_filename
    rw [if_pos hb]
    exact hr
  · refine ⟨1, base_name ++ extension, ?_⟩
    unfold get_unique_filename
    rw [if_neg hb]

/-- Witness for C9 on the empty filesystem. -/
theorem C9_allocator_terminates_witness :
    ∃ fuel r, get_unique_filename fsEmpty fuel "nft_collection" ".json" = some r :=
  C9_allocator_terminates fsEmpty "nft_collection" ".json" (by
    have hE : {k : Nat | fsEmpty (candidateName "nft_collection" ".json" k) = true} = ∅ := by
      ext k
      simp [fsEmpty]
    rw [hE]
    exact Set.finite_empty)

/-- On a filesystem where exactly candidates `0, ..., i-1` exist, the
allocator returns candidate `i` (with fuel at least `i`). -/
theorem get_unique_filename_at_state (b e : String) (i : Nat) (fs : String → Bool)
    (fuel : Nat) (hinv : ∀ k, fs (candidateName b e k) = decide (k < i))
    (hfuel : i ≤ fuel) :
    get_unique_filename fs fuel b e = some (candidateName b e i) := by
  unfold get_unique_filename
  match i, hinv, hfuel with
  | 0, hinv, hfuel =>
    have h0 : fs (b ++ e) = false := by simpa [candidateName] using hinv 0
    rw [if_neg (by simp [h0])]
    rfl
  | m + 1, hinv, hfuel =>
    have h0 : fs (b ++ e) = true := by simpa [candidateName] using hinv 0
    rw [if_pos h0]
    refine uniqueLoop_exact fs b e fuel 1 (m + 1) (by omega) (by omega) ?_ ?_
    · simpa [candidateName] using hinv (m + 1)
    · intro j hj1 hj2
      match j, hj1 with
      | t + 1, _ =>
        have := hinv (t + 1)
        simp only [candidateName] at this
        rw [this]
        simp
        omega

/-- Creating the just-returned candidate file advances the filesystem
invariant by one. -/
theorem extendFs_invariant (b e : String) (i : Nat) (fs : String → Bool)
    (hinv : ∀ k, fs (candidateName b e k) = decide (k < i)) :
    ∀ k, extendFs fs (candidateName b e i) (candidateName b e k) = decide (k < i + 1) := by
  intro k
  unfold extendFs
  by_cases hk : candidateName b e k = candidateName b e i
  · have hik := candidateName_inj hk
    subst hik
    rw [if_pos rfl]
    simp
  · rw [if_neg hk, hinv k]
    have hne : k ≠ i := fun hh => hk (by rw [hh])
    rcases Nat.lt_trichotomy k i with hlt | heq | hgt
    · simp only [decide_eq_decide]
      omega
    · exact absurd heq hne
    · simp only [decide_eq_decide]
      omega

/-- Allocate-and-create from the state where candidates `0..i-1` exist:
the next `n` allocations return candidates `i, i+1, ..., i+n-1` in order. -/
theorem allocateN_from_state (b e : String) :
    ∀ n i fs fuel, (∀ k, fs (candidateName b e k) = decide (k < i)) → i + n ≤ fuel →
      allocateN fs fuel b e n =
        some ((List.range n).map (fun t => candidateName b e (i + t))) := by
  intro n
  induction n with
  | zero => intro i fs fuel _ _; simp [allocateN]
  | succ n ih =>
    intro i fs fuel hinv hfuel
    simp only [allocateN,
      get_unique_filename_at_state b e i fs fuel hinv (by omega),
      ih (i + 1) (extendFs fs (candidateName b e i)) fuel
        (extendFs_invariant b e i fs hinv) (by omega)]
    have hfun : (fun t => candidateName b e (i + 1 + t)) =
        (fun t => candidateName b e (i + (t + 1))) :=
      funext (fun t => by rw [Nat.add_assoc, Nat.add_comm 1 t])
    rw [List.range_succ_eq_map]
    simp [List.map_map, Function.comp_def, hfun]

/-- C8: calling the Filename Allocator `N` times, creating each returned
file before the next call, yields the `N` distinct, monotonically-suffixed
filenames `base.ext, base_1.ext, base_2.ext, ...`, starting from a state
where none of these files exist. -/
theorem C8_repeated_allocation (base_name extension : String) (N : Nat)
    (fs : String → Bool)
    (h : ∀ k, fs (candidateName base_name extension k) = false) :
    allocateN fs (N + 1) base_name extension N =
      some ((List.range N).map (candidateName base_name extension)) ∧
    ((List.range N).map (candidateName base_name extension)).Nodup := by
  constructor
  · have hres := allocateN_from_state base_name extension N 0 fs (N + 1)
      (fun k => by simp [h k]) (by omega)
    simpa using hres
  · exact List.Nodup.map (fun a b hab => candidateName_inj hab) (List.nodup_range N)

/-- Witness for C8: three allocations on the empty filesystem yield
`nft_collection.json`, `nft_collection_1.json`, `nft_collection_2.json`. -/
theorem C8_repeated_allocation_witness :
    allocateN fsEmpty (3 + 1) "nft_collection" ".json" 3 =
      some ((List.range 3).map (candidateName "nft_collection" ".json")) ∧
    ((List.range 3).map (candidateName "nft_collection" ".json")).Nodup :=
  C8_repeated_allocation "nft_collection" ".json" 3 fsEmpty (fun _ => rfl)

/-- C3: when the input file `index.html` does not exist, the pipeline
prints the user-facing error line, writes no output file, and the run ends
cleanly (the result is `some`, i.e. no exception propagates); the only
hypothesis is that the allocator — which runs first — returned. -/
theorem C3_missing_input (fs : String → Bool) (fuel : Nat) (p : String)
    (h : get_unique_filename fs fuel "nft_collection" ".json" = some p) :
    parse_html_to_json fs fuel none = some ⟨[notFoundMessage], none⟩ := by
  unfold parse_html_to_json
  rw [h]

/-- Witness for C3 on the empty filesystem. -/
theorem C3_missing_input_witness :
    parse_html_to_json fsEmpty 1 none = some ⟨[notFoundMessage], none⟩ :=
  C3_missing_input fsEmpty 1 "nft_collection.json" (by decide)

/-- C1 counterexample: a container whose image element carries an empty
`src` has a non-null `image_url`, yet the pipeline does not append its
record — so "appended if and only if `image_url` is non-null" fails. -/
theorem C1_nonnull_iff_counterexample :
    extractImageUrl itemEmptySrc = some "" ∧
    extractRecord itemEmptySrc = none ∧
    parse_html_to_json fsEmpty 1 (some [itemEmptySrc]) = some ⟨[emptyMessage], none⟩ :=
  ⟨rfl, rfl, rfl⟩

/-- C1 amended: the record is appended if and only if `image_url` is
non-null and non-empty (Python truthiness); a container lacking an image
element is excluded regardless of its other fields; and every record of the
Collection has a non-empty `image_url`. -/
theorem C1_truthiness_filter :
    (∀ item, (∃ r, extractRecord item = some r) ↔
        (∃ url, extractImageUrl item = some url ∧ url ≠ "")) ∧
    (∀ item, item.findDesc "img" "LibraryMedia" = none → extractRecord item = none) ∧
    (∀ doc r, r ∈ (find_all doc "div" "NftItemContainer").filterMap extractRecord →
        r.image_url ≠ "") := by
  have hrec : ∀ item r, extractRecord item = some r →
      ∃ url, extractImageUrl item = some url ∧ url ≠ "" ∧ r.image_url = url := by
    intro item r h
    cases himg : extractImageUrl item with
    | none =>
      simp only [extractRecord, himg] at h
      exact Option.noConfusion h
    | some url =>
      simp only [extractRecord, himg] at h
      by_cases hne : url = ""
      · rw [if_pos hne] at h
        cases h
      · rw [if_neg hne] at h
        injection h with h
        exact ⟨url, rfl, hne, by rw [← h]⟩
  refine ⟨fun item => ⟨fun ⟨r, hr⟩ => ?_, fun ⟨url, hurl, hne⟩ => ?_⟩,
    fun item hfind => ?_, fun doc r hmem => ?_⟩
  · obtain ⟨url, h1, h2, _⟩ := hrec item r hr
    exact ⟨url, h1, h2⟩
  · refine ⟨⟨extractName item, extractPrice item, url⟩, ?_⟩
    simp only [extractRecord, hurl, if_neg hne]
  · unfold extractRecord extractImageUrl
    rw [hfind]
  · obtain ⟨item, _, hr⟩ := List.mem_filterMap.mp hmem
    obtain ⟨url, _, hne, hru⟩ := hrec item r hr
    rw [hru]
    exact hne

/-- Witness for C1 amended: the fully populated container is appended. -/
theorem C1_truthiness_filter_witness :
    ∃ r, extractRecord itemFull = some r :=
  (C1_truthiness_filter.1 itemFull).mpr ⟨"http://x/1.png", rfl, by decide⟩

/-- C5: a selected container with an image but missing name or price
sub-elements yields the exact sentinels `"Unknown Name"` and
`"Not Listed"`; per-field extraction never aborts — the record is still
emitted whenever the image URL is truthy. -/
theorem C5_field_defaults :
    (∀ item, item.findDesc "span" "NftItemNameContent__name" = none →
        extractName item = "Unknown Name") ∧
    (∀ item, item.findDesc "div" "LibraryCryptoPrice__amount" = none →
        extractPrice item = "Not Listed") ∧
    (∀ item url, extractImageUrl item = some url → url ≠ "" →
        extractRecord item = some ⟨extractName item, extractPrice item, url⟩) := by
  refine ⟨fun item h => ?_, fun item h => ?_, fun item url h hne => ?_⟩
  · unfold extractName
    rw [h]
  · unfold extractPrice
    rw [h]
  · simp only [extractRecord, h, if_neg hne]

/-- Witness for C5: the container with an image and no name/price elements
emits exactly the two sentinels. -/
theorem C5_field_defaults_witness :
    extractRecord itemBare =
      some ⟨extractName itemBare, extractPrice itemBare, "http://x/2.png"⟩ ∧
    extractName itemBare = "Unknown Name" ∧
    extractPrice itemBare = "Not Listed" :=
  ⟨C5_field_defaults.2.2 itemBare "http://x/2.png" rfl (by decide),
    C5_field_defaults.1 itemBare rfl,
    C5_field_defaults.2.1 itemBare rfl⟩

/-- C10 (implicit): a selected container whose image element lacks a `src`
attribute, or whose `src` is the empty string, is excluded exactly like a
container with no image element — the filter tests truthiness. -/
theorem C10_src_truthiness :
    (∀ item img_tag, item.findDesc "img" "LibraryMedia" = some img_tag →
        (img_tag.getAttr "src" = none ∨ img_tag.getAttr "src" = some "") →
        extractRecord item = none) ∧
    (∀ item, item.findDesc "img" "LibraryMedia" = none → extractRecord item = none) := by
  constructor
  · intro item img_tag hfind hsrc
    simp only [extractRecord, extractImageUrl, hfind]
    rcases hsrc with h | h
    · rw [h]
    · rw [h]
      rfl
  · intro item hfind
    simp only [extractRecord, extractImageUrl, hfind]

/-- Witness for C10: both degenerate containers are excluded. -/
theorem C10_src_truthiness_witness :
    extractRecord itemEmptySrc = none ∧ extractRecord itemNoSrc = none :=
  ⟨C10_src_truthiness.1 itemEmptySrc (.elem "img" ["LibraryMedia"] [("src", "")] [])
      rfl (Or.inr rfl),
    C10_src_truthiness.1 itemNoSrc (.elem "img" ["LibraryMedia"] [] [])
      rfl (Or.inl rfl)⟩

/-- C7: the selection step returns exactly the marker-class containers of
the document, in document order (a sublist of the document-order node
list); the Collection is the single document-order pass over those
containers; and no uniqueness constraint exists — a duplicated container
yields a duplicated record. -/
theorem C7_document_order (doc : List HNode) :
    (∀ x, x ∈ find_all doc "div" "NftItemContainer" ↔
        x ∈ docNodes doc ∧ matchesTagClass "div" "NftItemContainer" x = true) ∧
    (find_all doc "div" "NftItemContainer").Sublist (docNodes doc) ∧
    ((find_all doc "div" "NftItemContainer").filterMap extractRecord =
      (docNodes doc).filterMap (fun x =>
        if matchesTagClass "div" "NftItemContainer" x then extractRecord x else none)) ∧
    (find_all dupDoc "div" "NftItemContainer").filterMap extractRecord =
      [⟨"Cool Cat", "1.5 TON", "http://x/1.png"⟩, ⟨"Cool Cat", "1.5 TON", "http://x/1.png"⟩] := by
  refine ⟨fun x => ?_, ?_, ?_, ?_⟩
  · simp [find_all, List.mem_filter]
  · exact List.filter_sublist _
  · exact List.filterMap_filter _ _ _
  · rfl

/-- Whitespace prefixes are transparent to `skipWs`. -/
theorem skipWs_append_of_ws (ws : List Char) (h : ∀ c ∈ ws, isWsChar c = true)
    (l : List Char) : skipWs (ws ++ l) = skipWs l := by
  induction ws with
  | nil => rfl
  | cons c cs ih =>
    have hc : isWsChar c = true := h c (List.mem_cons_self c cs)
    simp only [List.cons_append, skipWs, hc, if_true]
    exact ih (fun x hx => h x (List.mem_cons_of_mem c hx))

/-- `skipWs` stops at a non-whitespace head. -/
theorem skipWs_cons_of_not (c : Char) (l : List Char) (h : isWsChar c = false) :
    skipWs (c :: l) = c :: l := by
  simp [skipWs, h]

/-- Every character of an indentation prefix is whitespace. -/
theorem mem_indentChars_ws (lvl : Nat) : ∀ c ∈ indentChars lvl, isWsChar c = true := by
  intro c hc
  rw [List.eq_of_mem_replicate hc]
  rfl

/-- A newline-plus-indentation separator is transparent to `skipWs`. -/
theorem skipWs_newline_indent (lvl : Nat) (l : List Char) :
    skipWs ('\n' :: (indentChars lvl ++ l)) = skipWs l := by
  have h1 : skipWs (indentChars lvl ++ l) = skipWs l :=
    skipWs_append_of_ws _ (mem_indentChars_ws lvl) l
  have h2 : isWsChar '\n' = true := rfl
  simp [skipWs, h2, h1]

/-- `hexVal` inverts `Nat.digitChar` on hexadecimal digits. -/
theorem hexVal_digitChar : ∀ d, d < 16 → hexVal (Nat.digitChar d) = some d := by decide

/-- The parser decodes an escaped string body back to the original
characters, consuming exactly up to the closing quote. -/
theorem parseStringBody_escape (l : List Char) (rest : List Char) :
    parseStringBody (escapeChars l ++ '"' :: rest) = some (l, rest) := by
  induction l with
  | nil =>
    simp only [escapeChars, List.nil_append]
    rw [parseStringBody.eq_def]
    simp
  | cons c cs ih =>
    simp only [escapeChars, List.append_assoc]
    show parseStringBody (escapeChar c ++ (escapeChars cs ++ '"' :: rest)) = _
    unfold escapeChar
    by_cases h1 : c = '"'
    · subst h1
      rw [parseStringBody.eq_def]
      simp [unescapeChar, ih]
    · rw [if_neg h1]
      by_cases h2 : c = '\\'
      · subst h2
        rw [parseStringBody.eq_def]
        simp [unescapeChar, ih]
      · rw [if_neg h2]
        by_cases h3 : c = '\x08'
        · subst h3
          rw [parseStringBody.eq_def]
          simp [unescapeChar, ih]
        · rw [if_neg h3]
          by_cases h4 : c = '\x0c'
          · subst h4
            rw [parseStringBody.eq_def]
            simp [unescapeChar, ih]
          · rw [if_neg h4]
            by_cases h5 : c = '\n'
            · subst h5
              rw [parseStringBody.eq_def]
              simp [unescapeChar, ih]
            · rw [if_neg h5]
              by_cases h6 : c = '\r'
              · subst h6
                rw [parseStringBody.eq_def]
                simp [unescapeChar, ih]
              · rw [if_neg h6]
                by_cases h7 : c = '\t'
                · subst h7
                  rw [parseStringBody.eq_def]
                  simp [unescapeChar, ih]
                · rw [if_neg h7]
                  by_cases h8 : c.toNat < 0x20
                  · rw [if_pos h8]
                    have hz := hexVal_digitChar (c.toNat / 16) (by omega)
                    have hw := hexVal_digitChar (c.toNat % 16) (by omega)
                    have harith : ((0 * 16 + 0) * 16 + c.toNat / 16) * 16 + c.toNat % 16
                        = c.toNat := by omega
                    have h0 : hexVal '0' = some 0 := rfl
                    rw [parseStringBody.eq_def]
                    simp [hex4, h0, hz, hw, harith, Char.ofNat_toNat, ih]
                    have harith2 : c.toNat / 16 * 16 + c.toNat % 16 = c.toNat := by
                      omega
                    rw [harith2, Char.ofNat_toNat]
                  · rw [if_neg h8]
                    have h8f : (c.toNat < 0x20) = False := by simp [h8]
                    rw [parseStringBody.eq_def]
                    simp [h1, h2, h8f, ih]

/-- Skipping whitespace over a whitespace prefix followed by a
non-whitespace head. -/
theorem skipWs_pre_cons (pre : List Char) (h : ∀ c ∈ pre, isWsChar c = true)
    (c : Char) (hc : isWsChar c = false) (l : List Char) :
    skipWs (pre ++ c :: l) = c :: l := by
  rw [skipWs_append_of_ws pre h, skipWs_cons_of_not c l hc]

/-- A newline followed by indentation is all whitespace. -/
theorem mem_newline_indent_ws (lvl : Nat) :
    ∀ c ∈ '\n' :: indentChars lvl, isWsChar c = true := by
  intro c hc
  rcases List.mem_cons.mp hc with h | h
  · rw [h]
    rfl
  · exact mem_indentChars_ws lvl c h

/-- Every rendered value is at least one parser step heavy. -/
theorem weightVal_pos (j : Json) : 1 ≤ weightVal j := by
  cases j with
  | str s => simp [weightVal]
  | arr xs => simp [weightVal]
  | obj ms => simp [weightVal]

/-- The first character of a rendered value is a quote or an opening
bracket: not whitespace and not a closing token. -/
theorem dumpVal_head (j : Json) (lvl : Nat) :
    ∃ c l, dumpVal j lvl = c :: l ∧ isWsChar c = false ∧ c ≠ ']' ∧ c ≠ '\x7d' := by
  cases j with
  | str s => exact ⟨'"', escapeChars s.data ++ ['"'], by simp [dumpVal], rfl, by decide, by decide⟩
  | arr xs =>
    cases xs with
    | nil => exact ⟨'[', [']'], by simp [dumpVal], rfl, by decide, by decide⟩
    | cons x xs =>
      exact ⟨'[', dumpItems (x :: xs) (lvl + 1) ++ '\n' :: indentChars lvl ++ [']'],
        by simp [dumpVal], rfl, by decide, by decide⟩
  | obj ms =>
    cases ms with
    | nil => exact ⟨'\x7b', ['\x7d'], by simp [dumpVal], rfl, by decide, by decide⟩
    | cons m ms =>
      exact ⟨'\x7b', dumpMembers (m :: ms) (lvl + 1) ++ '\n' :: indentChars lvl ++ ['\x7d'],
        by simp [dumpVal], rfl, by decide, by decide⟩

/-- A rendered non-empty item list starts with the newline-indent
separator, the first value, and some tail. -/
theorem dumpItems_cons_shape (x : Json) (xs : List Json) (lvl : Nat) :
    ∃ T, dumpItems (x :: xs) lvl = '\n' :: indentChars lvl ++ dumpVal x lvl ++ T := by
  cases xs with
  | nil => exact ⟨[], by simp [dumpItems]⟩
  | cons y ys => exact ⟨',' :: dumpItems (y :: ys) lvl, by simp [dumpItems]⟩

/-- Skipping whitespace at the start of a rendered non-empty item list
reveals the head of the first value: not whitespace, not a closing token. -/
theorem skipWs_dumpItems_cons (x : Json) (xs : List Json) (lvl : Nat) (r2 : List Char) :
    ∃ c0 l0, skipWs (dumpItems (x :: xs) lvl ++ r2) = c0 :: l0 ∧
      isWsChar c0 = false ∧ c0 ≠ ']' ∧ c0 ≠ '\x7d' := by
  obtain ⟨T, hT⟩ := dumpItems_cons_shape x xs lvl
  obtain ⟨c0, l0, hd, hws, h1, h2⟩ := dumpVal_head x lvl
  refine ⟨c0, l0 ++ (T ++ r2), ?_, hws, h1, h2⟩
  rw [hT, hd]
  simp only [List.cons_append, List.append_assoc]
  rw [skipWs_newline_indent, skipWs_cons_of_not _ _ hws]

/-- A rendered non-empty member list starts with the newline-indent
separator and a quoted key. -/
theorem dumpMembers_cons_shape (k : String) (v : Json) (ms : List (String × Json)) (lvl : Nat) :
    ∃ T, dumpMembers ((k, v) :: ms) lvl =
      '\n' :: indentChars lvl ++ '"' :: escapeChars k.data ++ '"' :: ':' :: ' ' :: dumpVal v lvl ++ T := by
  cases ms with
  | nil => exact ⟨[], by simp [dumpMembers]⟩
  | cons m ms => exact ⟨',' :: dumpMembers (m :: ms) lvl, by simp [dumpMembers]⟩

/-- Skipping whitespace at the start of a rendered non-empty member list
reveals the opening quote of the first key. -/
theorem skipWs_dumpMembers_cons (k : String) (v : Json) (ms : List (String × Json))
    (lvl : Nat) (r2 : List Char) :
    ∃ l0, skipWs (dumpMembers ((k, v) :: ms) lvl ++ r2) = '"' :: l0 := by
  obtain ⟨T, hT⟩ := dumpMembers_cons_shape k v ms lvl
  refine ⟨escapeChars k.data ++ '"' :: ':' :: ' ' :: dumpVal v lvl ++ (T ++ r2), ?_⟩
  rw [hT]
  simp only [List.cons_append, List.append_assoc]
  rw [skipWs_newline_indent, skipWs_cons_of_not '"' _ rfl]

/-- Skipping whitespace over a newline-indent separator stops at the next
non-whitespace character. -/
theorem skipWs_newline_indent_cons (lvl : Nat) (c : Char) (hc : isWsChar c = false)
    (l : List Char) : skipWs ('\n' :: (indentChars lvl ++ c :: l)) = c :: l := by
  rw [skipWs_newline_indent]
  exact skipWs_cons_of_not c l hc

/-- Fuel-indexed round trip: run on a rendered value (behind any
whitespace prefix) the parser returns exactly that value and the untouched
remainder; the array-item and object-member loops likewise rebuild the
rendered lists. -/
theorem parse_dump_triple : ∀ n,
    (∀ j lvl pre rest, (∀ c ∈ pre, isWsChar c = true) → weightVal j ≤ n →
      parseValue n (pre ++ dumpVal j lvl ++ rest) = some (j, rest)) ∧
    (∀ xs acc lvl rest, xs ≠ [] → weightItems xs ≤ n →
      parseArrItems n (dumpItems xs (lvl + 1) ++ '\n' :: indentChars lvl ++ ']' :: rest) acc =
        some (.arr (acc ++ xs), rest)) ∧
    (∀ ms acc lvl rest, ms ≠ [] → weightMembers ms ≤ n →
      parseObjItems n (dumpMembers ms (lvl + 1) ++ '\n' :: indentChars lvl ++ '\x7d' :: rest) acc =
        some (.obj (acc ++ ms), rest)) := by
  intro n
  induction n with
  | zero =>
    refine ⟨fun j lvl pre rest _ hw => absurd hw (by have := weightVal_pos j; omega),
      fun xs acc lvl rest hne hw => ?_, fun ms acc lvl rest hne hw => ?_⟩
    · cases xs with
      | nil => exact absurd rfl hne
      | cons x xs => rw [weightItems] at hw; omega
    · cases ms with
      | nil => exact absurd rfl hne
      | cons m ms =>
        cases m with
        | mk k v => rw [weightMembers] at hw; omega
  | succ n ih =>
    obtain ⟨ihV, ihA, ihO⟩ := ih
    refine ⟨fun j lvl pre rest hws hw => ?_, fun xs acc lvl rest hne hw => ?_,
      fun ms acc lvl rest hne hw => ?_⟩
    · -- parseValue on a rendered value
      cases j with
      | str s =>
        have hsh : pre ++ dumpVal (.str s) lvl ++ rest =
            pre ++ '"' :: (escapeChars s.data ++ '"' :: rest) := by
          simp [dumpVal]
        rw [hsh]
        simp only [parseValue]
        rw [skipWs_pre_cons pre hws '"' rfl _]
        simp [parseStringBody_escape]
      | arr xs =>
        cases xs with
        | nil =>
          have hsh : pre ++ dumpVal (.arr []) lvl ++ rest = pre ++ '[' :: ']' :: rest := by
            simp [dumpVal]
          rw [hsh]
          simp only [parseValue]
          rw [skipWs_pre_cons pre hws '[' rfl _]
          have hsk : skipWs (']' :: rest) = ']' :: rest := skipWs_cons_of_not _ _ rfl
          simp
          rw [hsk]
          simp
        | cons x xs =>
          have hsh : pre ++ dumpVal (.arr (x :: xs)) lvl ++ rest =
              pre ++ '[' :: (dumpItems (x :: xs) (lvl + 1) ++
                '\n' :: indentChars lvl ++ ']' :: rest) := by
            simp [dumpVal]
          rw [hsh]
          simp only [parseValue]
          rw [skipWs_pre_cons pre hws '[' rfl _]
          obtain ⟨c0, l0, hsk, hws0, hne1, hne2⟩ :=
            skipWs_dumpItems_cons x xs (lvl + 1) ('\n' :: indentChars lvl ++ ']' :: rest)
          have hwi : weightItems (x :: xs) ≤ n := by rw [weightVal] at hw; omega
          have hitems := ihA (x :: xs) [] lvl rest (by simp) hwi
          simp only [List.cons_append, List.append_assoc] at hsk hitems
          simp
          rw [hsk]
          simp [hne1, hitems]
      | obj ms =>
        cases ms with
        | nil =>
          have hsh : pre ++ dumpVal (.obj []) lvl ++ rest = pre ++ '\x7b' :: '\x7d' :: rest := by
            simp [dumpVal]
          rw [hsh]
          simp only [parseValue]
          rw [skipWs_pre_cons pre hws '\x7b' rfl _]
          have hsk : skipWs ('\x7d' :: rest) = '\x7d' :: rest := skipWs_cons_of_not _ _ rfl
          simp
          rw [hsk]
          simp
        | cons m ms =>
          cases m with
          | mk k v =>
            have hsh : pre ++ dumpVal (.obj ((k, v) :: ms)) lvl ++ rest =
                pre ++ '\x7b' :: (dumpMembers ((k, v) :: ms) (lvl + 1) ++
                  '\n' :: indentChars lvl ++ '\x7d' :: rest) := by
              simp [dumpVal]
            rw [hsh]
            simp only [parseValue]
            rw [skipWs_pre_cons pre hws '\x7b' rfl _]
            obtain ⟨l0, hsk⟩ :=
              skipWs_dumpMembers_cons k v ms (lvl + 1)
                ('\n' :: indentChars lvl ++ '\x7d' :: rest)
            have hwm : weightMembers ((k, v) :: ms) ≤ n := by rw [weightVal] at hw; omega
            have hmembers := ihO ((k, v) :: ms) [] lvl rest (by simp) hwm
            simp only [List.cons_append, List.append_assoc] at hsk hmembers
            simp
            rw [hsk]
            simp [hmembers]
    · -- parseArrItems on rendered items
      match xs, hne with
      | [x], _ =>
        have hw1 : weightVal x ≤ n := by rw [weightItems, weightItems] at hw; omega
        have hval := ihV x (lvl + 1) ('\n' :: indentChars (lvl + 1))
          ('\n' :: indentChars lvl ++ ']' :: rest) (mem_newline_indent_ws (lvl + 1)) hw1
        have hsk := skipWs_newline_indent_cons lvl ']' rfl rest
        simp only [parseArrItems, dumpItems]
        simp only [List.cons_append, List.append_assoc, List.nil_append] at hval ⊢
        rw [hval]
        simp [hsk]
      | x :: y :: ys, _ =>
        have hw1 : weightVal x ≤ n := by
          rw [weightItems, weightItems] at hw
          have := weightVal_pos y
          omega
        have hw2 : weightItems (y :: ys) ≤ n := by
          rw [weightItems] at hw
          have := weightVal_pos x
          omega
        have hval := ihV x (lvl + 1) ('\n' :: indentChars (lvl + 1))
          (',' :: (dumpItems (y :: ys) (lvl + 1) ++ '\n' :: indentChars lvl ++ ']' :: rest))
          (mem_newline_indent_ws (lvl + 1)) hw1
        have hrest := ihA (y :: ys) (acc ++ [x]) lvl rest (by simp) hw2
        have hsk : skipWs (',' :: (dumpItems (y :: ys) (lvl + 1) ++
            '\n' :: indentChars lvl ++ ']' :: rest)) =
            ',' :: (dumpItems (y :: ys) (lvl + 1) ++
              '\n' :: indentChars lvl ++ ']' :: rest) := skipWs_cons_of_not _ _ rfl
        simp only [parseArrItems, dumpItems]
        simp only [List.cons_append, List.append_assoc, List.nil_append] at hval hrest hsk ⊢
        rw [hval]
        simp [hsk, hrest, List.append_assoc]
    · -- parseObjItems on rendered members
      match ms, hne with
      | [(k, v)], _ =>
        have hw1 : weightVal v ≤ n := by rw [weightMembers, weightMembers] at hw; omega
        have hval := ihV v (lvl + 1) [' ']
          ('\n' :: indentChars lvl ++ '\x7d' :: rest)
          (by intro c hc; simp at hc; rw [hc]; rfl) hw1
        have hstr := parseStringBody_escape k.data
          (':' :: ' ' :: (dumpVal v (lvl + 1) ++ ('\n' :: indentChars lvl ++ '\x7d' :: rest)))
        have hsk1 := skipWs_newline_indent_cons lvl '\x7d' rfl rest
        simp only [parseObjItems, dumpMembers]
        simp only [List.cons_append, List.append_assoc, List.nil_append] at hval hstr ⊢
        rw [skipWs_newline_indent_cons (lvl + 1) '"' rfl _]
        simp [hstr]
        rw [skipWs_cons_of_not ':' _ rfl]
        simp
        rw [hval]
        simp [hsk1]
      | (k, v) :: m2 :: ms2, _ =>
        have hw1 : weightVal v ≤ n := by
          rw [weightMembers] at hw
          have hp : 1 ≤ weightMembers (m2 :: ms2) := by
            cases m2 with
            | mk k2 v2 => rw [weightMembers]; omega
          omega
        have hw2 : weightMembers (m2 :: ms2) ≤ n := by
          rw [weightMembers] at hw
          have := weightVal_pos v
          omega
        have hval := ihV v (lvl + 1) [' ']
          (',' :: (dumpMembers (m2 :: ms2) (lvl + 1) ++
            '\n' :: indentChars lvl ++ '\x7d' :: rest))
          (by intro c hc; simp at hc; rw [hc]; rfl) hw1
        have hstr := parseStringBody_escape k.data
          (':' :: ' ' :: (dumpVal v (lvl + 1) ++ (',' :: (dumpMembers (m2 :: ms2) (lvl + 1) ++
            '\n' :: indentChars lvl ++ '\x7d' :: rest))))
        have hrest := ihO (m2 :: ms2) (acc ++ [(k, v)]) lvl rest (by simp) hw2
        have hsk : skipWs (',' :: (dumpMembers (m2 :: ms2) (lvl + 1) ++
            '\n' :: indentChars lvl ++ '\x7d' :: rest)) =
            ',' :: (dumpMembers (m2 :: ms2) (lvl + 1) ++
              '\n' :: indentChars lvl ++ '\x7d' :: rest) := skipWs_cons_of_not _ _ rfl
        simp only [parseObjItems, dumpMembers]
        simp only [List.cons_append, List.append_assoc, List.nil_append] at hval hstr hrest hsk ⊢
        rw [skipWs_newline_indent_cons (lvl + 1) '"' rfl _]
        simp [hstr]
        rw [skipWs_cons_of_not ':' _ rfl]
        simp
        rw [hval]
        simp [hsk, hrest, List.append_assoc]

/-- The rendered text is at least as long as the fuel the round trip
needs. -/
theorem weight_le_dump_length : ∀ n,
    (∀ j lvl, weightVal j ≤ n → weightVal j ≤ (dumpVal j lvl).length) ∧
    (∀ xs lvl, weightItems xs ≤ n → weightItems xs ≤ (dumpItems xs lvl).length) ∧
    (∀ ms lvl, weightMembers ms ≤ n → weightMembers ms ≤ (dumpMembers ms lvl).length) := by
  intro n
  induction n with
  | zero =>
    refine ⟨fun j lvl hw => absurd hw (by have := weightVal_pos j; omega),
      fun xs lvl hw => ?_, fun ms lvl hw => ?_⟩
    · cases xs with
      | nil => simp [weightItems]
      | cons x xs => rw [weightItems] at hw; omega
    · cases ms with
      | nil => simp [weightMembers]
      | cons m ms =>
        cases m with
        | mk k v => rw [weightMembers] at hw; omega
  | succ n ih =>
    obtain ⟨ihV, ihA, ihO⟩ := ih
    refine ⟨fun j lvl hw => ?_, fun xs lvl hw => ?_, fun ms lvl hw => ?_⟩
    · cases j with
      | str s => simp [weightVal, dumpVal]
      | arr xs =>
        cases xs with
        | nil => simp [weightVal, weightItems, dumpVal]
        | cons x xs =>
          have hwi : weightItems (x :: xs) ≤ n := by rw [weightVal] at hw; omega
          have h1 := ihA (x :: xs) (lvl + 1) hwi
          rw [weightVal]
          simp [dumpVal]
          omega
      | obj ms =>
        cases ms with
        | nil => simp [weightVal, weightMembers, dumpVal]
        | cons m ms =>
          cases m with
          | mk k v =>
            have hwm : weightMembers ((k, v) :: ms) ≤ n := by rw [weightVal] at hw; omega
            have h1 := ihO ((k, v) :: ms) (lvl + 1) hwm
            rw [weightVal]
            simp [dumpVal]
            omega
    · cases xs with
      | nil => simp [weightItems]
      | cons x xs =>
        have hwv : weightVal x ≤ n := by
          rw [weightItems] at hw
          omega
        have h1 := ihV x lvl hwv
        cases xs with
        | nil =>
          rw [weightItems, weightItems]
          simp [dumpItems, indentChars]
          omega
        | cons y ys =>
          have hwr : weightItems (y :: ys) ≤ n := by
            rw [weightItems] at hw
            have := weightVal_pos x
            omega
          have h2 := ihA (y :: ys) lvl hwr
          rw [weightItems]
          simp [dumpItems, indentChars]
          omega
    · cases ms with
      | nil => simp [weightMembers]
      | cons m ms =>
        cases m with
        | mk k v =>
          have hwv : weightVal v ≤ n := by
            rw [weightMembers] at hw
            omega
          have h1 := ihV v lvl hwv
          cases ms with
          | nil =>
            rw [weightMembers, weightMembers]
            simp [dumpMembers, indentChars]
            omega
          | cons m2 ms2 =>
            have hwr : weightMembers (m2 :: ms2) ≤ n := by
              rw [weightMembers] at hw
              have := weightVal_pos v
              omega
            have h2 := ihO (m2 :: ms2) lvl hwr
            rw [weightMembers]
            simp [dumpMembers, indentChars]
            omega

/-- With the top-level fuel `length + 1`, the parser inverts the
serializer exactly, consuming the whole rendered text. -/
theorem parseValue_dump (j : Json) :
    parseValue ((dumpVal j 0).length + 1) (dumpVal j 0) = some (j, []) := by
  have hb : weightVal j ≤ (dumpVal j 0).length + 1 := by
    have h := (weight_le_dump_length (weightVal j)).1 j 0 (Nat.le_refl _)
    omega
  have h := (parse_dump_triple ((dumpVal j 0).length + 1)).1 j 0 [] [] (by simp) hb
  simpa using h

/-- C6: for every Collection, parsing the written JSON document back
yields a value equal in order, keys and values to the in-memory
Collection as serialized. -/
theorem C6_round_trip (l : List Record) :
    json_loads (json_dumps (collectionJson l)) = some (collectionJson l) := by
  unfold json_loads json_dumps
  have hd : (String.mk (dumpVal (collectionJson l) 0)).data = dumpVal (collectionJson l) 0 := rfl
  rw [hd, parseValue_dump (collectionJson l)]
  simp [skipWs]

/-- One record renders exactly as the spec lays it out: an object at one
indent level, the three fields at two levels, keys in the order `name`,
`price`, `image_url`. -/
theorem specRecordBlock_data (r : Record) :
    (specRecordBlock r).data = indentChars 1 ++ dumpVal (recordJson r) 1 := by
  have hesc : ∀ s : String, (escapeString s).data = escapeChars s.data := fun s => rfl
  have hind1 : indentChars 1 = [' ', ' ', ' ', ' '] := rfl
  have hind2 : indentChars 2 = [' ', ' ', ' ', ' ', ' ', ' ', ' ', ' '] := rfl
  have hk1 : ("name" : String).data = ['n', 'a', 'm', 'e'] := rfl
  have hk2 : ("price" : String).data = ['p', 'r', 'i', 'c', 'e'] := rfl
  have hk3 : ("image_url" : String).data = ['i', 'm', 'a', 'g', 'e', '_', 'u', 'r', 'l'] := rfl
  have e1 : ("    \x7b\n        \"name\": \"" : String).data =
      [' ', ' ', ' ', ' ', '\x7b', '\n', ' ', ' ', ' ', ' ', ' ', ' ', ' ', ' ',
       '"', 'n', 'a', 'm', 'e', '"', ':', ' ', '"'] := rfl
  have e2 : ("\",\n        \"price\": \"" : String).data =
      ['"', ',', '\n', ' ', ' ', ' ', ' ', ' ', ' ', ' ', ' ',
       '"', 'p', 'r', 'i', 'c', 'e', '"', ':', ' ', '"'] := rfl
  have e3 : ("\",\n        \"image_url\": \"" : String).data =
      ['"', ',', '\n', ' ', ' ', ' ', ' ', ' ', ' ', ' ', ' ',
       '"', 'i', 'm', 'a', 'g', 'e', '_', 'u', 'r', 'l', '"', ':', ' ', '"'] := rfl
  have e4 : ("\"\n    \x7d" : String).data = ['"', '\n', ' ', ' ', ' ', ' ', '\x7d'] := rfl
  have q1 : escapeChars ['n', 'a', 'm', 'e'] = ['n', 'a', 'm', 'e'] := rfl
  have q2 : escapeChars ['p', 'r', 'i', 'c', 'e'] = ['p', 'r', 'i', 'c', 'e'] := rfl
  have q3 : escapeChars ['i', 'm', 'a', 'g', 'e', '_', 'u', 'r', 'l'] =
      ['i', 'm', 'a', 'g', 'e', '_', 'u', 'r', 'l'] := rfl
  simp only [specRecordBlock, String.data_append, hesc, e1, e2, e3, e4]
  simp only [recordJson, dumpVal, dumpMembers, hind1, hind2, hk1, hk2, hk3, q1, q2, q3]
  simp only [List.cons_append, List.append_assoc, List.nil_append]

/-- The record blocks render exactly as the comma-joined spec layout,
one newline before each block. -/
theorem specRecordBlocks_data (x : Record) (xs : List Record) :
    '\n' :: (specRecordBlocks (x :: xs)).data = dumpItems ((x :: xs).map recordJson) 1 := by
  induction xs generalizing x with
  | nil =>
    simp only [specRecordBlocks, List.map_cons, List.map_nil, dumpItems]
    rw [specRecordBlock_data]
    simp
  | cons y ys ih =>
    have hsep : (",\n" : String).data = [',', '\n'] := rfl
    have ihy := ih y
    simp only [List.map_cons] at ihy
    simp only [specRecordBlocks, String.data_append, List.map_cons, dumpItems, hsep]
    rw [specRecordBlock_data, ← ihy]
    simp [List.cons_append, List.append_assoc]

/-- For a non-empty collection, `json.dump` output equals the spec-side
serialization: array brackets on their own lines, 4-space indentation,
fields in order. -/
theorem json_dumps_eq_specSerialize (l : List Record) (h : l ≠ []) :
    json_dumps (collectionJson l) = specSerialize l := by
  obtain ⟨x, xs, rfl⟩ := List.exists_cons_of_ne_nil h
  have hdata : (json_dumps (collectionJson (x :: xs))).data = (specSerialize (x :: xs)).data := by
    have h1 : (json_dumps (collectionJson (x :: xs))).data =
        dumpVal (.arr ((x :: xs).map recordJson)) 0 := rfl
    rw [h1]
    have e5 : ("[\n" : String).data = ['[', '\n'] := rfl
    have e6 : ("\n]" : String).data = ['\n', ']'] := rfl
    have hind0 : indentChars 0 = [] := rfl
    have hblocks := specRecordBlocks_data x xs
    simp only [List.map_cons] at hblocks
    simp only [specSerialize, String.data_append, e5, e6]
    simp only [List.map_cons, dumpVal, hind0, Nat.zero_add]
    rw [← hblocks]
    simp [List.cons_append, List.append_assoc]
  exact String.ext hdata

/-- C4: with the allocated output path in hand, a run over a parsed
document writes exactly when the Collection is non-empty: the written text
is the `json.dump` output — equal to the spec layout with 4-space
indentation and keys in the order `name`, `price`, `image_url` — and the
console lines report the record count and the output path; an empty
Collection produces only the warning and no write. Every character at or
above `U+0020` other than quote and backslash — in particular all
non-ASCII — is emitted literally, not escaped. -/
theorem C4_output_format (fs : String → Bool) (fuel : Nat) (doc : List HNode) (p : String)
    (halloc : get_unique_filename fs fuel "nft_collection" ".json" = some p) :
    ((find_all doc "div" "NftItemContainer").filterMap extractRecord = [] →
      parse_html_to_json fs fuel (some doc) = some ⟨[emptyMessage], none⟩) ∧
    (∀ x xs, (find_all doc "div" "NftItemContainer").filterMap extractRecord = x :: xs →
      parse_html_to_json fs fuel (some doc) =
        some ⟨[successMessage (x :: xs).length, savedMessage p],
          some (p, json_dumps (collectionJson (x :: xs)))⟩) ∧
    (∀ l : List Record, l ≠ [] → json_dumps (collectionJson l) = specSerialize l) ∧
    (∀ c : Char, 0x20 ≤ c.toNat → c ≠ '"' → c ≠ '\\' → escapeChar c = [c]) := by
  refine ⟨fun h => ?_, fun x xs h => ?_, fun l hl => json_dumps_eq_specSerialize l hl,
    fun c hc h1 h2 => ?_⟩
  · simp [parse_html_to_json, halloc, h]
  · simp [parse_html_to_json, halloc, h]
  · have h3 : c ≠ '\x08' := fun e => by subst e; exact absurd hc (by decide)
    have h4 : c ≠ '\x0c' := fun e => by subst e; exact absurd hc (by decide)
    have h5 : c ≠ '\n' := fun e => by subst e; exact absurd hc (by decide)
    have h6 : c ≠ '\r' := fun e => by subst e; exact absurd hc (by decide)
    have h7 : c ≠ '\t' := fun e => by subst e; exact absurd hc (by decide)
    have h8 : ¬ c.toNat < 0x20 := by omega
    unfold escapeChar
    rw [if_neg h1, if_neg h2, if_neg h3, if_neg h4, if_neg h5, if_neg h6, if_neg h7, if_neg h8]

/-- Witness for C4 on the duplicated-container document over the empty
filesystem. -/
theorem C4_output_format_witness :
    ((find_all dupDoc "div" "NftItemContainer").filterMap extractRecord = [] →
      parse_html_to_json fsEmpty 1 (some dupDoc) = some ⟨[emptyMessage], none⟩) ∧
    (∀ x xs, (find_all dupDoc "div" "NftItemContainer").filterMap extractRecord = x :: xs →
      parse_html_to_json fsEmpty 1 (some dupDoc) =
        some ⟨[successMessage (x :: xs).length, savedMessage "nft_collection.json"],
          some ("nft_collection.json", json_dumps (collectionJson (x :: xs)))⟩) ∧
    (∀ l : List Record, l ≠ [] → json_dumps (collectionJson l) = specSerialize l) ∧
    (∀ c : Char, 0x20 ≤ c.toNat → c ≠ '"' → c ≠ '\\' → escapeChar c = [c]) :=
  C4_output_format fsEmpty 1 dupDoc "nft_collection.json" (by decide)
